import Mathlib

/-!
Shallow embedding of the ranked-choice voting engine of `src/lib.rs`
(`submit_vote`, `open_voting`, `close_voting`, `compute_rcv`) together with
proofs of the specification claims.  Machine integers (`i32`) are modelled as
`Int`; the database tables touched by the engine are modelled as explicit
state records, and diesel transactions as pure state-passing functions that
return the untouched input state on error (rollback).
-/

namespace HpHalloween

/-- A row of the `votes` table (Rust struct `Vote` in `model.rs`). -/
structure Vote where
  id : Int
  voter_id : Int
  first_choice_id : Int
  second_choice_id : Int
  third_choice_id : Int
  submitted_at : Int
deriving DecidableEq

/-- One tabulation round (Rust struct `RcvRound`). -/
structure RcvRound where
  round_number : Nat
  tallies : List (Int × Int)
  eliminated : List Int
  winner : Option Int
deriving DecidableEq

/-- Full tabulation output (Rust struct `RcvResult`). -/
structure RcvResult where
  winner_id : Option Int
  rounds : List RcvRound
deriving DecidableEq

/-- The singleton row of the `voting_status` table (Rust struct `VotingStatus`). -/
structure VotingStatus where
  id : Int
  is_open : Int
  opened_at : Option Int
  closed_at : Option Int
deriving DecidableEq

/-- The tagged error kinds that `submit_vote` can produce.  The Rust code wraps
them all in `diesel::result::Error` (a string message or `NotFound`); the spec
names the four kinds as below. -/
inductive VoteError where
  | VotingClosed
  | NotFound
  | SelfVote
  | DuplicateChoice
deriving DecidableEq

/-- The slice of database state read and written by ballot intake: the
`voting_status` singleton (possibly absent), the set of ids of guests with
`is_active = 1`, and the rows of the `votes` table in table order. -/
structure Db where
  voting_status : Option VotingStatus
  active_guests : Finset Int
  votes : List Vote
deriving DecidableEq

/-- Rust `voting_is_open`: true iff the status row exists and has `is_open == 1`. -/
def voting_is_open (db : Db) : Bool :=
  match db.voting_status with
  | some st => st.is_open == 1
  | none => false

/-- The per-choice validation loop of `submit_vote`: for each choice in order,
check self-vote, then duplication against the earlier choices, then roster
membership — exactly the order of the Rust `for` loop. -/
def checkChoices (db : Db) (voter_id : Int) : List Int → List Int → Option VoteError
  | [], _ => none
  | c :: rest, seen =>
    if c = voter_id then some .SelfVote
    else if c ∈ seen then some .DuplicateChoice
    else if c ∉ db.active_guests then some .NotFound
    else checkChoices db voter_id rest (c :: seen)

/-- Rust `submit_vote`.  The whole body runs in one transaction, so an error
leaves the database unchanged; `rowId` stands for the id the database assigns
to the inserted row and `now` for `Utc::now()`. -/
def submit_vote (db : Db) (voter_id first second third rowId now : Int) :
    Db × Option VoteError :=
  if !voting_is_open db then (db, some .VotingClosed)
  else if voter_id ∉ db.active_guests then (db, some .NotFound)
  else
    match checkChoices db voter_id [first, second, third] [] with
    | some e => (db, some e)
    | none =>
      ({ db with votes :=
          db.votes.filter (fun v => !(v.voter_id == voter_id)) ++
            [⟨rowId, voter_id, first, second, third, now⟩] }, none)

/-- Rust `open_voting`, restricted to its effect on the status row. -/
def open_voting (st : VotingStatus) (now : Int) : VotingStatus :=
  { st with is_open := 1, opened_at := some now, closed_at := none }

/-- Rust `close_voting`, restricted to its effect on the status row (the
tabulation it additionally triggers is `compute_rcv` below). -/
def close_voting (st : VotingStatus) (now : Int) : VotingStatus :=
  { st with is_open := 0, closed_at := some now }

/-- The highest-ranked choice of a ballot, in the fixed order first → second →
third, that is a member of `active`; `none` if the ballot is exhausted.  This
mirrors the `if / else if / else if` chain of the tally loop. -/
def firstActiveChoice (active : Finset Int) (v : Vote) : Option Int :=
  if v.first_choice_id ∈ active then some v.first_choice_id
  else if v.second_choice_id ∈ active then some v.second_choice_id
  else if v.third_choice_id ∈ active then some v.third_choice_id
  else none

/-- One step of the tally accumulation: bump the counter of the ballot's first
active choice, leaving the map unchanged for an exhausted ballot.  The Rust
`HashMap<i32, i32>` is modelled as a total function with default 0. -/
def tallyStep (active : Finset Int) (f : Int → Int) (v : Vote) : Int → Int :=
  match firstActiveChoice active v with
  | some c => fun x => if x = c then f c + 1 else f x
  | none => f

/-- The tally map of one round: fold `tallyStep` over the active ballots. -/
def tallies (active : Finset Int) (ballots : List Vote) : Int → Int :=
  ballots.foldl (tallyStep active) (fun _ => 0)

/-- The sort order used for a round's tally list: vote count descending, ties
broken by candidate id ascending (`b.1.cmp(&a.1).then(a.0.cmp(&b.0))`). -/
def tallyRel (a b : Int × Int) : Prop :=
  b.2 < a.2 ∨ (a.2 = b.2 ∧ a.1 ≤ b.1)

instance : DecidableRel tallyRel := fun a b => by
  unfold tallyRel; exact inferInstance

instance : IsTotal (Int × Int) tallyRel where
  total a b := by
    unfold tallyRel
    rcases lt_trichotomy a.2 b.2 with h | h | h
    · exact Or.inr (Or.inl h)
    · rcases le_total a.1 b.1 with h1 | h1
      · exact Or.inl (Or.inr ⟨h, h1⟩)
      · exact Or.inr (Or.inr ⟨h.symm, h1⟩)
    · exact Or.inl (Or.inl h)

instance : IsTrans (Int × Int) tallyRel where
  trans a b c hab hbc := by
    unfold tallyRel at *
    rcases hab with h | ⟨h1, h2⟩ <;> rcases hbc with g | ⟨g1, g2⟩
    · exact Or.inl (lt_trans g h)
    · exact Or.inl (g1 ▸ h)
    · exact Or.inl (h1 ▸ g)
    · exact Or.inr ⟨h1.trans g1, h2.trans g2⟩

instance : IsAntisymm (Int × Int) tallyRel where
  antisymm a b hab hba := by
    unfold tallyRel at *
    rcases hab with h | ⟨h1, h2⟩ <;> rcases hba with g | ⟨g1, g2⟩
    · exact absurd h (lt_asymm g)
    · exact absurd h (g1 ▸ lt_irrefl _)
    · exact absurd g (h1 ▸ lt_irrefl _)
    · exact Prod.ext (le_antisymm h2 g2) h1

/-- Enumerate a finite set of ids as the ascending list of its members
(an executable variant of `Finset.sort`, kernel-reducible because it uses
structural insertion sort). -/
def sortedIds (active : Finset Int) : List Int :=
  Quot.liftOn active.val (fun l => l.insertionSort (· ≤ ·)) fun _ _ h =>
    List.eq_of_perm_of_sorted
      ((List.perm_insertionSort _ _).trans (h.trans (List.perm_insertionSort _ _).symm))
      (List.sorted_insertionSort _ _) (List.sorted_insertionSort _ _)

/-- The sorted tally list of one round: one entry per active candidate
(defaulting to count 0), sorted by count descending then id ascending.  The
Rust code iterates the `HashSet` in arbitrary order and then sorts by the
total order `tallyRel`, so the result is the unique `tallyRel`-sorted
arrangement; we produce it from the canonical enumeration of the set. -/
def roundTallies (active : Finset Int) (ballots : List Vote) : List (Int × Int) :=
  List.insertionSort tallyRel
    ((sortedIds active).map (fun c => (c, tallies active ballots c)))

/-- The majority threshold of a round: `max(1, ceil(total_ballots * 0.5))` for
a positive pool, 0 for an empty pool.  `ceil(n * 0.5)` is exact in `f64` for
every `i32` value, and equals `(n + 1) / 2` in integer arithmetic. -/
def majorityThreshold (total_ballots : Int) : Int :=
  if 0 < total_ballots then max 1 ((total_ballots + 1) / 2) else 0

/-- `round_tallies.first().map(|(_, c)| *c).unwrap_or(0)`. -/
def topCount (rt : List (Int × Int)) : Int :=
  (rt.head?.map Prod.snd).getD 0

/-- `round_tallies[1].1` guarded by the length test, default 0. -/
def secondCount (rt : List (Int × Int)) : Int :=
  (rt[1]?.map Prod.snd).getD 0

/-- `round_tallies.len() < 2 || round_tallies[1].1 < top_count`. -/
def isClearTop (rt : List (Int × Int)) : Prop :=
  rt.length < 2 ∨ secondCount rt < topCount rt

instance (rt : List (Int × Int)) : Decidable (isClearTop rt) := by
  unfold isClearTop; exact inferInstance

/-- `round_tallies.last().map(|(_, c)| *c).unwrap_or(0)`. -/
def minVotes (rt : List (Int × Int)) : Int :=
  (rt.getLast?.map Prod.snd).getD 0

/-- The candidates eliminated in a round: all entries whose count equals the
minimum count. -/
def toEliminate (rt : List (Int × Int)) : List Int :=
  (rt.filter (fun p => p.2 == minVotes rt)).map Prod.fst

/-- The `retain` predicate on ballots: at least one of the three choices is
still an active candidate. -/
def hasActiveChoice (active : Finset Int) (v : Vote) : Bool :=
  decide (v.first_choice_id ∈ active) || decide (v.second_choice_id ∈ active) ||
    decide (v.third_choice_id ∈ active)

/-- The `while !active_candidates.is_empty()` loop of `compute_rcv`, with a
fuel parameter for structural recursion.  `compute_rcv` always supplies fuel
at least `active.card`, which is proved sufficient (the fuel-exhausted branch
is then never taken). -/
def rcvLoop : Nat → Finset Int → List Vote → Nat → List RcvRound → RcvResult
  | 0, _, _, _, rounds => ⟨none, rounds⟩
  | fuel + 1, active, ballots, round_number, rounds =>
    if active = ∅ then ⟨none, rounds⟩
    else
      let rt := roundTallies active ballots
      match (if majorityThreshold (ballots.length : Int) ≤ topCount rt ∧ isClearTop rt
             then rt.head? else none) with
      | some p =>
        ⟨some p.1, rounds ++ [⟨round_number, rt, [], some p.1⟩]⟩
      | none =>
        let elim := toEliminate rt
        let active2 := active \ elim.toFinset
        let ballots2 := ballots.filter (hasActiveChoice active2)
        rcvLoop fuel active2 ballots2 (round_number + 1)
          (rounds ++ [⟨round_number, rt, elim, none⟩])

/-- Rust `compute_rcv`. -/
def compute_rcv (votes : List Vote) (candidates : List Int) : RcvResult :=
  if candidates.isEmpty then ⟨none, []⟩
  else rcvLoop candidates.length candidates.toFinset votes 1 []

/-! ### Helper lemmas about `sortedIds` -/

theorem coe_sortedIds (active : Finset Int) :
    (sortedIds active : Multiset Int) = active.val := by
  rcases active with ⟨m, nd⟩
  induction m using Quot.inductionOn with
  | h l => exact Quot.sound (List.perm_insertionSort _ _)

theorem mem_sortedIds {active : Finset Int} {c : Int} :
    c ∈ sortedIds active ↔ c ∈ active := by
  rw [← Multiset.mem_coe, coe_sortedIds]
  rfl

theorem nodup_sortedIds (active : Finset Int) : (sortedIds active).Nodup := by
  have h := active.nodup
  rw [← coe_sortedIds active] at h
  exact h

theorem length_sortedIds (active : Finset Int) :
    (sortedIds active).length = active.card := by
  have h : Multiset.card (sortedIds active : Multiset Int) = Multiset.card active.val := by
    rw [coe_sortedIds]
  simpa using h

/-! ### Helper lemmas about the tally accumulation -/

theorem firstActiveChoice_mem {active : Finset Int} {v : Vote} {c : Int}
    (h : firstActiveChoice active v = some c) : c ∈ active := by
  unfold firstActiveChoice at h
  split_ifs at h with h1 h2 h3 <;> simp_all

theorem firstActiveChoice_isSome_iff {active : Finset Int} {v : Vote} :
    (firstActiveChoice active v).isSome = hasActiveChoice active v := by
  unfold firstActiveChoice hasActiveChoice
  split_ifs with h1 h2 h3 <;> simp_all

theorem foldl_tallyStep (active : Finset Int) (ballots : List Vote)
    (f : Int → Int) (c : Int) :
    ballots.foldl (tallyStep active) f c =
      f c + ((ballots.filter
        (fun v => firstActiveChoice active v == some c)).length : Int) := by
  induction ballots generalizing f with
  | nil => simp
  | cons v bs ih =>
    rw [List.foldl_cons, ih]
    unfold tallyStep
    rcases h : firstActiveChoice active v with _ | d
    · simp [List.filter_cons, h]
    · by_cases hc : c = d
      · subst hc
        simp [List.filter_cons, h]
        ring
      · have hcd : ¬d = c := fun hdc => hc hdc.symm
        simp [List.filter_cons, h, hcd]
        exact fun h2 => absurd h2 hc

theorem tallies_apply (active : Finset Int) (ballots : List Vote) (c : Int) :
    tallies active ballots c =
      ((ballots.filter (fun v => firstActiveChoice active v == some c)).length : Int) := by
  unfold tallies
  rw [foldl_tallyStep]
  simp

theorem sum_tallies (active : Finset Int) (ballots : List Vote) :
    (∑ c ∈ active, tallies active ballots c) =
      ((ballots.filter (fun v => (firstActiveChoice active v).isSome)).length : Int) := by
  induction ballots with
  | nil => simp [tallies_apply]
  | cons v bs ih =>
    simp only [tallies_apply] at ih ⊢
    rcases h : firstActiveChoice active v with _ | d
    · simpa [List.filter_cons, h] using ih
    · have hd : d ∈ active := firstActiveChoice_mem h
      have hsplit : ∀ c : Int,
          (((v :: bs).filter (fun w => firstActiveChoice active w == some c)).length : Int) =
            (if c = d then 1 else 0) +
              ((bs.filter (fun w => firstActiveChoice active w == some c)).length : Int) := by
        intro c
        by_cases hc : c = d
        · subst hc
          simp [List.filter_cons, h]
          omega
        · have : ¬(firstActiveChoice active v == some c) = true := by
            simp [h]
            intro hdc
            exact absurd hdc.symm hc
          simp [List.filter_cons, this, hc]
      simp only [hsplit]
      rw [Finset.sum_add_distrib, ih, Finset.sum_ite_eq' active d (fun _ => (1 : Int))]
      simp [List.filter_cons, h, hd]
      omega

/-! ### Helper lemmas about `roundTallies` -/

theorem roundTallies_perm (active : Finset Int) (ballots : List Vote) :
    List.Perm (roundTallies active ballots)
      ((sortedIds active).map (fun c => (c, tallies active ballots c))) :=
  List.perm_insertionSort _ _

theorem roundTallies_sorted (active : Finset Int) (ballots : List Vote) :
    (roundTallies active ballots).Sorted tallyRel :=
  List.sorted_insertionSort _ _

theorem mem_roundTallies {active : Finset Int} {ballots : List Vote}
    {p : Int × Int} :
    p ∈ roundTallies active ballots ↔
      p.1 ∈ active ∧ p.2 = tallies active ballots p.1 := by
  rw [(roundTallies_perm active ballots).mem_iff, List.mem_map]
  constructor
  · rintro ⟨c, hc, rfl⟩
    exact ⟨mem_sortedIds.mp hc, rfl⟩
  · rintro ⟨h1, h2⟩
    exact ⟨p.1, mem_sortedIds.mpr h1, by rw [← h2]⟩

theorem map_fst_roundTallies_perm (active : Finset Int) (ballots : List Vote) :
    List.Perm ((roundTallies active ballots).map Prod.fst) (sortedIds active) := by
  have h := (roundTallies_perm active ballots).map Prod.fst
  rw [List.map_map] at h
  simpa [Function.comp_def] using h

theorem nodup_fst_roundTallies (active : Finset Int) (ballots : List Vote) :
    ((roundTallies active ballots).map Prod.fst).Nodup :=
  (map_fst_roundTallies_perm active ballots).nodup_iff.mpr (nodup_sortedIds active)

theorem length_roundTallies (active : Finset Int) (ballots : List Vote) :
    (roundTallies active ballots).length = active.card := by
  have h := (roundTallies_perm active ballots).length_eq
  rw [h, List.length_map, length_sortedIds]

theorem toFinset_fst_roundTallies (active : Finset Int) (ballots : List Vote) :
    ((roundTallies active ballots).map Prod.fst).toFinset = active := by
  ext c
  rw [List.mem_toFinset, (map_fst_roundTallies_perm active ballots).mem_iff,
    mem_sortedIds]

theorem roundTallies_ne_nil {active : Finset Int} (ballots : List Vote)
    (h : active ≠ ∅) : roundTallies active ballots ≠ [] := by
  intro hnil
  have := length_roundTallies active ballots
  rw [hnil] at this
  exact h (Finset.card_eq_zero.mp this.symm)

/-! ### Consequences of sortedness -/

theorem sorted_topCount_max {l : List (Int × Int)} (hs : l.Sorted tallyRel) :
    ∀ p ∈ l, p.2 ≤ topCount l := by
  cases l with
  | nil => intro p hp; cases hp
  | cons a t =>
    intro p hp
    rcases List.mem_cons.mp hp with rfl | hp
    · simp [topCount]
    · have hr : tallyRel a p := (List.sorted_cons.mp hs).1 p hp
      rcases hr with h | ⟨h, _⟩
      · simp [topCount]; omega
      · simp [topCount, h]

theorem sorted_secondCount_max {l : List (Int × Int)} (hs : l.Sorted tallyRel) :
    ∀ p ∈ l.tail, p.2 ≤ secondCount l := by
  cases l with
  | nil => intro p hp; cases hp
  | cons a t =>
    cases t with
    | nil => intro p hp; cases hp
    | cons b u =>
      intro p hp
      rcases List.mem_cons.mp hp with rfl | hp
      · simp [secondCount]
      · have hr : tallyRel b p :=
          (List.sorted_cons.mp (List.sorted_cons.mp hs).2).1 p hp
        rcases hr with h | ⟨h, _⟩
        · simp [secondCount]; omega
        · simp [secondCount, h]

theorem sorted_minVotes_min {l : List (Int × Int)} (hs : l.Sorted tallyRel) :
    ∀ p ∈ l, minVotes l ≤ p.2 := by
  induction l with
  | nil => intro p hp; cases hp
  | cons a t ih =>
    intro p hp
    cases t with
    | nil =>
      rcases List.mem_cons.mp hp with rfl | hp
      · simp [minVotes]
      · cases hp
    | cons b u =>
      have hlast : (a :: b :: u).getLast? = (b :: u).getLast? := by
        simp [List.getLast?]
      have hmv : minVotes (a :: b :: u) = minVotes (b :: u) := by
        simp [minVotes, hlast]
      rcases List.mem_cons.mp hp with rfl | hp
      · have hb : minVotes (b :: u) ≤ b.2 :=
          ih (List.sorted_cons.mp hs).2 b (List.mem_cons_self b u)
        have hr : tallyRel p b := (List.sorted_cons.mp hs).1 b (List.mem_cons_self b u)
        rw [hmv]
        rcases hr with h | ⟨h, _⟩ <;> omega
      · rw [hmv]
        exact ih (List.sorted_cons.mp hs).2 p hp

/-! ### Helper lemmas about elimination -/

theorem toEliminate_ne_nil {l : List (Int × Int)} (h : l ≠ []) :
    toEliminate l ≠ [] := by
  have hmem : l.getLast h ∈ l.filter (fun p => p.2 == minVotes l) := by
    rw [List.mem_filter]
    refine ⟨List.getLast_mem h, ?_⟩
    simp [minVotes, List.getLast?_eq_getLast _ h]
  intro hnil
  unfold toEliminate at hnil
  rw [List.map_eq_nil_iff] at hnil
  rw [hnil] at hmem
  cases hmem

theorem mem_toEliminate {active : Finset Int} {ballots : List Vote} {c : Int} :
    c ∈ toEliminate (roundTallies active ballots) ↔
      c ∈ active ∧
        tallies active ballots c = minVotes (roundTallies active ballots) := by
  unfold toEliminate
  rw [List.mem_map]
  constructor
  · rintro ⟨p, hp, rfl⟩
    rw [List.mem_filter] at hp
    rcases hp with ⟨hp, hmin⟩
    rcases mem_roundTallies.mp hp with ⟨h1, h2⟩
    refine ⟨h1, ?_⟩
    rw [← h2]
    exact eq_of_beq hmin
  · rintro ⟨h1, h2⟩
    refine ⟨(c, tallies active ballots c), ?_, rfl⟩
    rw [List.mem_filter]
    exact ⟨mem_roundTallies.mpr ⟨h1, rfl⟩, beq_iff_eq.mpr h2⟩

theorem card_sdiff_toEliminate {active : Finset Int} {ballots : List Vote}
    (h : active ≠ ∅) :
    (active \ (toEliminate (roundTallies active ballots)).toFinset).card <
      active.card := by
  have hne := toEliminate_ne_nil (roundTallies_ne_nil ballots h)
  rcases List.exists_mem_of_ne_nil _ hne with ⟨e, he⟩
  have hea : e ∈ active := (mem_toEliminate.mp he).1
  apply Finset.card_lt_card
  constructor
  · exact Finset.sdiff_subset
  · intro hsub
    have := hsub hea
    rw [Finset.mem_sdiff] at this
    exact this.2 (List.mem_toFinset.mpr he)

/-! ### The integer form of the ceiling in the majority threshold -/

theorem ceil_half_eq (m : Int) : ⌈(m : ℚ) * (1 / 2)⌉ = (m + 1) / 2 := by
  rw [Int.ceil_eq_iff]
  have hz : (m : ℤ) = 2 * ((m + 1) / 2) + (m + 1) % 2 - 1 := by omega
  have hq : (m : ℚ) = 2 * (((m + 1) / 2 : ℤ) : ℚ) + (((m + 1) % 2 : ℤ) : ℚ) - 1 := by
    exact_mod_cast hz
  have hr0 : (0 : ℚ) ≤ (((m + 1) % 2 : ℤ) : ℚ) := by
    exact_mod_cast Int.emod_nonneg (m + 1) (by norm_num)
  have hr1 : (((m + 1) % 2 : ℤ) : ℚ) ≤ 1 := by
    exact_mod_cast (by omega : (m + 1) % 2 ≤ 1)
  constructor
  · rw [hq]
    linarith
  · rw [hq]
    linarith

/-! ### Unfolding equations for `rcvLoop` -/

/-- The condition under which a round declares a winner. -/
def winnerCond (active : Finset Int) (ballots : List Vote) : Prop :=
  majorityThreshold (ballots.length : Int) ≤ topCount (roundTallies active ballots) ∧
    isClearTop (roundTallies active ballots)

instance (active : Finset Int) (ballots : List Vote) :
    Decidable (winnerCond active ballots) := by
  unfold winnerCond; exact inferInstance

/-- The shrunk candidate set after one non-winning round. -/
def nextActive (active : Finset Int) (ballots : List Vote) : Finset Int :=
  active \ (toEliminate (roundTallies active ballots)).toFinset

/-- The shrunk ballot pool after one non-winning round. -/
def nextBallots (active : Finset Int) (ballots : List Vote) : List Vote :=
  ballots.filter (hasActiveChoice (nextActive active ballots))

theorem rcvLoop_succ_empty (fuel : Nat) (b : List Vote) (n : Nat)
    (rec : List RcvRound) : rcvLoop (fuel + 1) ∅ b n rec = ⟨none, rec⟩ := by
  simp [rcvLoop]

theorem rcvLoop_winner {active : Finset Int} {ballots : List Vote}
    {hd : Int × Int} (fuel : Nat) (n : Nat) (rec : List RcvRound)
    (hne : active ≠ ∅)
    (hh : (roundTallies active ballots).head? = some hd)
    (hw : winnerCond active ballots) :
    rcvLoop (fuel + 1) active ballots n rec =
      ⟨some hd.1, rec ++ [⟨n, roundTallies active ballots, [], some hd.1⟩]⟩ := by
  unfold rcvLoop winnerCond at *
  rw [if_neg hne]
  simp only [if_pos hw, hh]

theorem rcvLoop_no_winner {active : Finset Int} {ballots : List Vote}
    (fuel : Nat) (n : Nat) (rec : List RcvRound)
    (hne : active ≠ ∅)
    (hw : ¬winnerCond active ballots) :
    rcvLoop (fuel + 1) active ballots n rec =
      rcvLoop fuel (nextActive active ballots) (nextBallots active ballots)
        (n + 1)
        (rec ++ [⟨n, roundTallies active ballots,
          toEliminate (roundTallies active ballots), none⟩]) := by
  unfold winnerCond at hw
  unfold nextActive nextBallots
  conv_lhs => unfold rcvLoop
  rw [if_neg hne]
  simp only [if_neg hw]
  rfl

theorem head_of_ne_nil {active : Finset Int} (ballots : List Vote)
    (hne : active ≠ ∅) :
    ∃ hd, (roundTallies active ballots).head? = some hd := by
  rcases h : (roundTallies active ballots).head? with _ | hd
  · rw [List.head?_eq_none_iff] at h
    exact absurd h (roundTallies_ne_nil ballots hne)
  · exact ⟨hd, rfl⟩

theorem rcvLoop_append :
    ∀ (fuel : Nat) (active : Finset Int) (b : List Vote) (n : Nat)
      (rec : List RcvRound),
      rcvLoop fuel active b n rec =
        ⟨(rcvLoop fuel active b n []).winner_id,
          rec ++ (rcvLoop fuel active b n []).rounds⟩ := by
  intro fuel
  induction fuel with
  | zero => intro active b n rec; simp [rcvLoop]
  | succ fuel ih =>
    intro active b n rec
    by_cases hne : active = ∅
    · subst hne
      simp [rcvLoop_succ_empty]
    · by_cases hw : winnerCond active b
      · rcases head_of_ne_nil b hne with ⟨hd, hh⟩
        rw [rcvLoop_winner fuel n rec hne hh hw, rcvLoop_winner fuel n [] hne hh hw]
        simp
      · rw [rcvLoop_no_winner fuel n rec hne hw, rcvLoop_no_winner fuel n [] hne hw,
          ih (nextActive active b) (nextBallots active b) (n + 1)
            (rec ++ [RcvRound.mk n (roundTallies active b)
              (toEliminate (roundTallies active b)) none]),
          ih (nextActive active b) (nextBallots active b) (n + 1)
            ([] ++ [RcvRound.mk n (roundTallies active b)
              (toEliminate (roundTallies active b)) none])]
        simp

theorem card_nextActive_lt {active : Finset Int} (ballots : List Vote)
    (hne : active ≠ ∅) :
    (nextActive active ballots).card < active.card :=
  card_sdiff_toEliminate hne

theorem rcvLoop_fuel_congr :
    ∀ (fuel1 fuel2 : Nat) (active : Finset Int) (b : List Vote) (n : Nat)
      (rec : List RcvRound),
      active.card ≤ fuel1 → active.card ≤ fuel2 →
      rcvLoop fuel1 active b n rec = rcvLoop fuel2 active b n rec := by
  intro fuel1
  induction fuel1 with
  | zero =>
    intro fuel2 active b n rec h1 _
    have : active = ∅ := Finset.card_eq_zero.mp (Nat.le_zero.mp h1)
    subst this
    cases fuel2 with
    | zero => rfl
    | succ fuel2 => rw [rcvLoop_succ_empty]; rfl
  | succ fuel1 ih =>
    intro fuel2 active b n rec h1 h2
    cases fuel2 with
    | zero =>
      have : active = ∅ := Finset.card_eq_zero.mp (Nat.le_zero.mp h2)
      subst this
      rw [rcvLoop_succ_empty]; rfl
    | succ fuel2 =>
      by_cases hne : active = ∅
      · subst hne
        rw [rcvLoop_succ_empty, rcvLoop_succ_empty]
      · by_cases hw : winnerCond active b
        · rcases head_of_ne_nil b hne with ⟨hd, hh⟩
          rw [rcvLoop_winner fuel1 n rec hne hh hw,
            rcvLoop_winner fuel2 n rec hne hh hw]
        · rw [rcvLoop_no_winner fuel1 n rec hne hw,
            rcvLoop_no_winner fuel2 n rec hne hw]
          have hlt := card_nextActive_lt b hne
          exact ih fuel2 _ _ _ _ (by omega) (by omega)

/-! ### The master round-structure invariant of the loop -/

theorem length_eq_of_tallies {l : List (Int × Int)} {s : Finset Int}
    (hnd : (l.map Prod.fst).Nodup) (hts : (l.map Prod.fst).toFinset = s) :
    l.length = s.card := by
  rw [← hts, List.toFinset_card_of_nodup hnd, List.length_map]

theorem rcvLoop_master :
    ∀ (fuel : Nat) (active : Finset Int) (b : List Vote) (n : Nat),
      active.card ≤ fuel →
      ∀ rs : List RcvRound, rs = (rcvLoop fuel active b n []).rounds →
      rs.length ≤ active.card ∧
      (rs = [] ↔ active = ∅) ∧
      (∀ i (hi : i < rs.length),
        (rs.get ⟨i, hi⟩).round_number = n + i ∧
        (rs.get ⟨i, hi⟩).tallies.Sorted tallyRel ∧
        ((rs.get ⟨i, hi⟩).tallies.map Prod.fst).Nodup) ∧
      (∀ h0 : 0 < rs.length,
        ((rs.get ⟨0, h0⟩).tallies.map Prod.fst).toFinset = active) ∧
      (∀ i (hi1 : i < rs.length) (hi2 : i + 1 < rs.length),
        (rs.get ⟨i, hi1⟩).winner = none ∧
        (rs.get ⟨i, hi1⟩).eliminated ≠ [] ∧
        ((rs.get ⟨i + 1, hi2⟩).tallies.map Prod.fst).toFinset =
          ((rs.get ⟨i, hi1⟩).tallies.map Prod.fst).toFinset \
            (rs.get ⟨i, hi1⟩).eliminated.toFinset ∧
        (rs.get ⟨i + 1, hi2⟩).tallies.length < (rs.get ⟨i, hi1⟩).tallies.length) := by
  intro fuel
  induction fuel with
  | zero =>
    intro active b n hcard rs hrs
    have hA : active = ∅ := Finset.card_eq_zero.mp (Nat.le_zero.mp hcard)
    subst hA
    have : rs = [] := by rw [hrs]; rfl
    subst this
    exact ⟨by simp, by simp, fun i hi => absurd hi (by simp),
      fun h0 => absurd h0 (by simp), fun i hi1 hi2 => absurd hi1 (by simp)⟩
  | succ fuel ih =>
    intro active b n hcard rs hrs
    by_cases hne : active = ∅
    · subst hne
      have : rs = [] := by rw [hrs, rcvLoop_succ_empty]
      subst this
      exact ⟨by simp, by simp, fun i hi => absurd hi (by simp),
        fun h0 => absurd h0 (by simp), fun i hi1 hi2 => absurd hi1 (by simp)⟩
    · have hpos : 0 < active.card :=
        Finset.card_pos.mpr (Finset.nonempty_iff_ne_empty.mpr hne)
      by_cases hw : winnerCond active b
      · rcases head_of_ne_nil b hne with ⟨hd, hh⟩
        have : rs = [⟨n, roundTallies active b, [], some hd.1⟩] := by
          rw [hrs, rcvLoop_winner fuel n [] hne hh hw]
          rfl
        subst this
        refine ⟨by simpa using hpos, by simp [hne], ?_, ?_, ?_⟩
        · intro i hi
          simp only [List.length_singleton] at hi
          have : i = 0 := by omega
          subst this
          exact ⟨by simp, by simpa using roundTallies_sorted active b,
            by simpa using nodup_fst_roundTallies active b⟩
        · intro h0
          simpa using toFinset_fst_roundTallies active b
        · intro i hi1 hi2
          simp only [List.length_singleton] at hi2
          omega
      · have hstep : rcvLoop (fuel + 1) active b n [] =
            rcvLoop fuel (nextActive active b) (nextBallots active b) (n + 1)
              ([] ++ [⟨n, roundTallies active b,
                toEliminate (roundTallies active b), none⟩]) :=
          rcvLoop_no_winner fuel n [] hne hw
        have hlt := card_nextActive_lt b hne
        obtain ⟨tail, htail, hrstail⟩ :
            ∃ tail, tail =
                (rcvLoop fuel (nextActive active b) (nextBallots active b)
                  (n + 1) []).rounds ∧
              rs = ⟨n, roundTallies active b,
                toEliminate (roundTallies active b), none⟩ :: tail := by
          refine ⟨_, rfl, ?_⟩
          rw [hrs, hstep,
            rcvLoop_append fuel (nextActive active b) (nextBallots active b) (n + 1)]
          simp
        obtain ⟨ihL, ihE, ihIdx, ihHead, ihAdj⟩ :=
          ih (nextActive active b) (nextBallots active b) (n + 1)
            (by omega) tail htail
        subst hrstail
        have hr0w : (roundTallies active b).length = active.card :=
          length_roundTallies active b
        refine ⟨?_, ?_, ?_, ?_, ?_⟩
        · simp only [List.length_cons]
          omega
        · simp [hne]
        · intro i hi
          cases i with
          | zero =>
            exact ⟨by simp, by simpa using roundTallies_sorted active b,
              by simpa using nodup_fst_roundTallies active b⟩
          | succ j =>
            have hj : j < tail.length := by
              simp only [List.length_cons] at hi
              omega
            obtain ⟨h1, h2, h3⟩ := ihIdx j hj
            refine ⟨?_, ?_, ?_⟩
            · simp only [List.get_cons_succ]
              rw [h1]
              omega
            · simpa only [List.get_cons_succ] using h2
            · simpa only [List.get_cons_succ] using h3
        · intro h0
          simpa using toFinset_fst_roundTallies active b
        · intro i hi1 hi2
          cases i with
          | zero =>
            have htpos : 0 < tail.length := by
              simp only [List.length_cons] at hi2
              omega
            have hhead := ihHead htpos
            obtain ⟨_, _, hnd0⟩ := ihIdx 0 htpos
            refine ⟨by simp, ?_, ?_, ?_⟩
            · show toEliminate (roundTallies active b) ≠ []
              exact toEliminate_ne_nil (roundTallies_ne_nil b hne)
            · have : (tail.get ⟨0, htpos⟩) = ((⟨n, roundTallies active b,
                  toEliminate (roundTallies active b), none⟩ : RcvRound) ::
                    tail).get ⟨1, hi2⟩ := rfl
              rw [← this, hhead]
              show nextActive active b =
                (List.map Prod.fst (roundTallies active b)).toFinset \
                  (toEliminate (roundTallies active b)).toFinset
              rw [toFinset_fst_roundTallies active b]
              rfl
            · have hlen0 : (tail.get ⟨0, htpos⟩).tallies.length =
                  (nextActive active b).card :=
                length_eq_of_tallies hnd0 hhead
              have : ((⟨n, roundTallies active b,
                  toEliminate (roundTallies active b), none⟩ : RcvRound) ::
                    tail).get ⟨1, hi2⟩ = tail.get ⟨0, htpos⟩ := rfl
              rw [this, hlen0]
              simpa [hr0w] using hlt
          | succ j =>
            have hj1 : j < tail.length := by
              simp only [List.length_cons] at hi2
              omega
            have hj2 : j + 1 < tail.length := by
              simp only [List.length_cons] at hi2
              omega
            obtain ⟨h1, h2, h3, h4⟩ := ihAdj j hj1 hj2
            exact ⟨by simpa only [List.get_cons_succ] using h1,
              by simpa only [List.get_cons_succ] using h2,
              by simpa only [List.get_cons_succ] using h3,
              by simpa only [List.get_cons_succ] using h4⟩

/-! ### A lone remaining candidate always wins the next round -/

theorem rcvLoop_lone (fuel : Nat) (c : Int) (ballots : List Vote)
    (n : Nat) (rec : List RcvRound)
    (hb : ∀ v ∈ ballots, hasActiveChoice {c} v = true) :
    rcvLoop (fuel + 1) {c} ballots n rec =
      ⟨some c, rec ++ [⟨n, [(c, (ballots.length : Int))], [], some c⟩]⟩ := by
  have hne : ({c} : Finset Int) ≠ ∅ := by simp
  have htal : tallies {c} ballots c = (ballots.length : Int) := by
    rw [tallies_apply]
    have hfil : ballots.filter (fun v => firstActiveChoice {c} v == some c) =
        ballots := by
      rw [List.filter_eq_self]
      intro v hv
      have h2 : (firstActiveChoice {c} v).isSome = true := by
        rw [firstActiveChoice_isSome_iff]
        exact hb v hv
      rcases Option.isSome_iff_exists.mp h2 with ⟨x, hx⟩
      have hxc : x ∈ ({c} : Finset Int) := firstActiveChoice_mem hx
      rw [Finset.mem_singleton] at hxc
      subst hxc
      simp [hx]
    rw [hfil]
  have hrt : roundTallies {c} ballots = [(c, (ballots.length : Int))] := by
    have hlen : (roundTallies {c} ballots).length = 1 := by
      rw [length_roundTallies]
      simp
    rcases List.length_eq_one.mp hlen with ⟨p, hp⟩
    have hmem : p ∈ roundTallies {c} ballots := by
      rw [hp]
      exact List.mem_cons_self p []
    rcases mem_roundTallies.mp hmem with ⟨h1, h2⟩
    rw [Finset.mem_singleton] at h1
    rw [hp]
    rcases p with ⟨a, b2⟩
    simp only at h1 h2
    subst h1
    rw [htal] at h2
    rw [h2]
  have hh : (roundTallies {c} ballots).head? =
      some (c, (ballots.length : Int)) := by
    rw [hrt]
    rfl
  have hw : winnerCond {c} ballots := by
    constructor
    · have htop : topCount (roundTallies {c} ballots) = (ballots.length : Int) := by
        rw [hrt]
        rfl
      rw [htop]
      unfold majorityThreshold
      split_ifs with h
      · rw [max_le_iff]
        omega
      · omega
    · unfold isClearTop
      left
      rw [hrt]
      simp
  rw [rcvLoop_winner fuel n rec hne hh hw, hrt]

/-! ### Ballot-order invariance of the loop -/

theorem tallies_congr_perm (active : Finset Int) {b1 b2 : List Vote}
    (hp : List.Perm b1 b2) : tallies active b1 = tallies active b2 := by
  funext c
  rw [tallies_apply, tallies_apply]
  exact_mod_cast congrArg Nat.cast (hp.filter _).length_eq

theorem roundTallies_congr_perm (active : Finset Int) {b1 b2 : List Vote}
    (hp : List.Perm b1 b2) :
    roundTallies active b1 = roundTallies active b2 := by
  unfold roundTallies
  rw [tallies_congr_perm active hp]

theorem rcvLoop_congr_perm :
    ∀ (fuel : Nat) (active : Finset Int) (b1 b2 : List Vote) (n : Nat)
      (rec : List RcvRound), List.Perm b1 b2 →
      rcvLoop fuel active b1 n rec = rcvLoop fuel active b2 n rec := by
  intro fuel
  induction fuel with
  | zero => intro active b1 b2 n rec _; rfl
  | succ fuel ih =>
    intro active b1 b2 n rec hp
    by_cases hne : active = ∅
    · subst hne
      rw [rcvLoop_succ_empty, rcvLoop_succ_empty]
    · have hwiff : winnerCond active b1 ↔ winnerCond active b2 := by
        unfold winnerCond
        rw [roundTallies_congr_perm active hp, hp.length_eq]
      by_cases hw : winnerCond active b1
      · rcases head_of_ne_nil b1 hne with ⟨hd, hh⟩
        have hh2 : (roundTallies active b2).head? = some hd := by
          rw [← roundTallies_congr_perm active hp]
          exact hh
        rw [rcvLoop_winner fuel n rec hne hh hw,
          rcvLoop_winner fuel n rec hne hh2 (hwiff.mp hw),
          roundTallies_congr_perm active hp]
      · have hw2 : ¬winnerCond active b2 := fun h => hw (hwiff.mpr h)
        rw [rcvLoop_no_winner fuel n rec hne hw,
          rcvLoop_no_winner fuel n rec hne hw2]
        have hna : nextActive active b1 = nextActive active b2 := by
          unfold nextActive
          rw [roundTallies_congr_perm active hp]
        have hnb : List.Perm (nextBallots active b1) (nextBallots active b2) := by
          unfold nextBallots
          rw [hna]
          exact hp.filter _
        rw [hna, roundTallies_congr_perm active hp]
        exact ih _ _ _ _ _ hnb

/-! ### Claim theorems -/

/-- C9: `open_voting` sets `is_open = 1`, `opened_at = now` and clears
`closed_at`; `close_voting` sets `is_open = 0`, `closed_at = now` and leaves
`opened_at` untouched; both are idempotent (a repeated open re-clears
`closed_at`, a repeated close refreshes `closed_at`) and neither has an error
condition (both are total functions). -/
theorem claim9_open_close_voting_effects (st : VotingStatus) (now now2 : Int) :
    open_voting st now = ⟨st.id, 1, some now, none⟩ ∧
    close_voting st now = ⟨st.id, 0, st.opened_at, some now⟩ ∧
    (close_voting st now).opened_at = st.opened_at ∧
    open_voting (open_voting st now) now2 = open_voting st now2 ∧
    close_voting (close_voting st now) now2 = close_voting st now2 :=
  ⟨rfl, rfl, rfl, rfl, rfl⟩

/-- C1 counterexample: the window is open and the second choice equals the
voter id (an active roster member), yet `submit_vote` returns `NotFound`, not
`SelfVote`, because the first choice (99, not on the roster) fails its roster
check before the self-vote check on the second choice is ever reached.  This
falsifies the claim that a choice equal to `voter_id` always yields `SelfVote`
even when some choice id is not an active roster member. -/
theorem claim1_counterexample :
    voting_is_open ⟨some ⟨1, 1, some 0, none⟩, {1, 2}, []⟩ = true ∧
    (1 : Int) ∈ (⟨some ⟨1, 1, some 0, none⟩, {1, 2}, []⟩ : Db).active_guests ∧
    (submit_vote ⟨some ⟨1, 1, some 0, none⟩, {1, 2}, []⟩ 1 99 1 2 100 200).2 =
      some VoteError.NotFound ∧
    some VoteError.NotFound ≠ some VoteError.SelfVote := by
  decide

/-- C1 (amended): `submit_vote` called while the window is closed always fails
with `VotingClosed` regardless of any other validity of the input.  When the
window is open, an inactive voter fails with `NotFound` before any choice is
examined.  When the window is open and the voter is active, the choices are
validated strictly in the order first, second, third, and for each choice in
turn the checks are: `SelfVote` if it equals `voter_id`, then
`DuplicateChoice` if it equals an earlier choice, then `NotFound` if it is not
an active roster member — so a self-vote or duplicate at a later position is
reported only when every earlier choice passed all three of its checks. -/
theorem claim1_amended (db : Db) (v f s t rid now : Int) :
    (voting_is_open db = false →
      submit_vote db v f s t rid now = (db, some VoteError.VotingClosed)) ∧
    (voting_is_open db = true → v ∉ db.active_guests →
      submit_vote db v f s t rid now = (db, some VoteError.NotFound)) ∧
    (voting_is_open db = true → v ∈ db.active_guests →
      ((f = v → submit_vote db v f s t rid now = (db, some VoteError.SelfVote)) ∧
       (f ≠ v → f ∉ db.active_guests →
          submit_vote db v f s t rid now = (db, some VoteError.NotFound)) ∧
       (f ≠ v → f ∈ db.active_guests → s = v →
          submit_vote db v f s t rid now = (db, some VoteError.SelfVote)) ∧
       (f ≠ v → f ∈ db.active_guests → s ≠ v → s = f →
          submit_vote db v f s t rid now = (db, some VoteError.DuplicateChoice)) ∧
       (f ≠ v → f ∈ db.active_guests → s ≠ v → s ≠ f → s ∉ db.active_guests →
          submit_vote db v f s t rid now = (db, some VoteError.NotFound)) ∧
       (f ≠ v → f ∈ db.active_guests → s ≠ v → s ≠ f → s ∈ db.active_guests →
          t = v →
          submit_vote db v f s t rid now = (db, some VoteError.SelfVote)) ∧
       (f ≠ v → f ∈ db.active_guests → s ≠ v → s ≠ f → s ∈ db.active_guests →
          t ≠ v → (t = f ∨ t = s) →
          submit_vote db v f s t rid now = (db, some VoteError.DuplicateChoice)) ∧
       (f ≠ v → f ∈ db.active_guests → s ≠ v → s ≠ f → s ∈ db.active_guests →
          t ≠ v → t ≠ f → t ≠ s → t ∉ db.active_guests →
          submit_vote db v f s t rid now = (db, some VoteError.NotFound)))) := by
  refine ⟨?_, ?_, ?_⟩
  · intro h
    simp [submit_vote, h]
  · intro h hv
    simp [submit_vote, h, hv]
  · intro h hv
    refine ⟨?_, ?_, ?_, ?_, ?_, ?_, ?_, ?_⟩
    · intro hf
      simp [submit_vote, checkChoices, h, hv, hf]
    · intro hf hfa
      simp [submit_vote, checkChoices, h, hv, hf, hfa]
    · intro hf hfa hs
      simp [submit_vote, checkChoices, h, hv, hf, hfa, hs]
    · intro hf hfa hs hsf
      simp [submit_vote, checkChoices, h, hv, hf, hfa, hs, hsf]
    · intro hf hfa hs hsf hsa
      simp [submit_vote, checkChoices, h, hv, hf, hfa, hs, hsf, hsa]
    · intro hf hfa hs hsf hsa ht
      simp [submit_vote, checkChoices, h, hv, hf, hfa, hs, hsf, hsa, ht]
    · intro hf hfa hs hsf hsa ht htd
      have hmem : t ∈ [s, f] := by
        rcases htd with rfl | rfl
        · simp
        · simp
      simp [submit_vote, checkChoices, h, hv, hf, hfa, hs, hsf, hsa, ht, hmem]
    · intro hf hfa hs hsf hsa ht htf hts hta
      simp [submit_vote, checkChoices, h, hv, hf, hfa, hs, hsf, hsa, ht, htf,
        hts, hta]

/-- C1 amended, witnessed at a concrete input: open window, active voter 1,
first choice 2 valid, second choice equal to the voter — `SelfVote`. -/
theorem claim1_amended_witness :
    (submit_vote ⟨some ⟨1, 1, some 0, none⟩, {1, 2}, []⟩ 1 2 1 3 100 200).2 =
      some VoteError.SelfVote := by
  have h := ((claim1_amended ⟨some ⟨1, 1, some 0, none⟩, {1, 2}, []⟩
      1 2 1 3 100 200).2.2 (by decide) (by decide)).2.2.1
      (by decide) (by decide) rfl
  rw [h]

/-- C8: `submit_vote` never leaves a partial state.  On any rejection the
database (in particular the ballot store) is returned unchanged, so any prior
ballot of the voter is untouched; on success the status row and roster are
unchanged, the voter afterwards has exactly one ballot, whose choices are the
arguments of the successful call, and the ballots of every other voter are
exactly as before. -/
theorem claim8_submit_vote_atomicity (db : Db) (v f s t rid now : Int) :
    (∀ e, (submit_vote db v f s t rid now).2 = some e →
      (submit_vote db v f s t rid now).1 = db) ∧
    ((submit_vote db v f s t rid now).2 = none →
      (submit_vote db v f s t rid now).1.voting_status = db.voting_status ∧
      (submit_vote db v f s t rid now).1.active_guests = db.active_guests ∧
      (submit_vote db v f s t rid now).1.votes.filter
          (fun b => b.voter_id == v) = [⟨rid, v, f, s, t, now⟩] ∧
      (submit_vote db v f s t rid now).1.votes.filter
          (fun b => !(b.voter_id == v)) =
        db.votes.filter (fun b => !(b.voter_id == v))) := by
  unfold submit_vote
  by_cases h1 : !voting_is_open db
  · simp only [if_pos h1]
    simp
  · simp only [if_neg h1]
    by_cases h2 : v ∉ db.active_guests
    · simp only [if_pos h2]
      simp
    · simp only [if_neg h2]
      rcases h3 : checkChoices db v [f, s, t] [] with _ | e
      · simp only [h3]
        refine ⟨by simp, fun _ => ?_⟩
        refine ⟨trivial, trivial, ?_, ?_⟩
        · simp [List.filter_append, List.filter_filter]
        · simp [List.filter_append, List.filter_filter]
      · simp only [h3]
        simp

/-- C8 witnessed at a concrete successful call: voter 1 re-votes (2, 3, 4);
afterwards voter 1 has exactly the new ballot and no other ballots changed. -/
theorem claim8_witness :
    ((submit_vote ⟨some ⟨1, 1, some 0, none⟩, {1, 2, 3, 4},
        [⟨5, 1, 4, 3, 2, 9⟩]⟩ 1 2 3 4 100 200).1.votes.filter
      (fun b => b.voter_id == 1) = [⟨100, 1, 2, 3, 4, 200⟩]) ∧
    ((submit_vote ⟨some ⟨1, 1, some 0, none⟩, {1, 2, 3, 4},
        [⟨5, 1, 4, 3, 2, 9⟩]⟩ 1 2 3 4 100 200).1.votes.filter
      (fun b => !(b.voter_id == 1)) =
      List.filter (fun b => !(b.voter_id == 1)) [⟨5, 1, 4, 3, 2, 9⟩]) := by
  have h := (claim8_submit_vote_atomicity ⟨some ⟨1, 1, some 0, none⟩,
      {1, 2, 3, 4}, [⟨5, 1, 4, 3, 2, 9⟩]⟩ 1 2 3 4 100 200).2 (by decide)
  exact ⟨h.2.2.1, h.2.2.2⟩

/-- C2: in every round (the active candidate set is an arbitrary nonempty
finite set `insert a s`, the ballot pool an arbitrary list), the majority
threshold equals `max(1, ceil(total_ballots * 0.5))` for a positive pool and
`0` for an empty one; the head count of the sorted tally list is the highest
tally and the second entry bounds every tally of the tail; and a winner is
declared in the round — tabulation returning immediately with that candidate
as `winner_id` — exactly when the highest tally reaches the threshold and
either fewer than two candidates remain or the second-highest tally is
strictly below the highest; otherwise the round ends with no winner and
tabulation continues. -/
theorem claim2_majority_and_winner_rule (fuel : Nat) (a : Int) (s : Finset Int)
    (ballots : List Vote) (n : Nat) (rec : List RcvRound) :
    (majorityThreshold (ballots.length : Int) =
      if (0 : Int) < (ballots.length : Int) then
        max 1 ⌈((ballots.length : Int) : ℚ) * (1 / 2)⌉ else 0) ∧
    (roundTallies (insert a s) ballots).length = (insert a s).card ∧
    (∀ p ∈ roundTallies (insert a s) ballots,
      p.2 ≤ topCount (roundTallies (insert a s) ballots)) ∧
    (∀ p ∈ (roundTallies (insert a s) ballots).tail,
      p.2 ≤ secondCount (roundTallies (insert a s) ballots)) ∧
    (if majorityThreshold (ballots.length : Int) ≤
          topCount (roundTallies (insert a s) ballots) ∧
        isClearTop (roundTallies (insert a s) ballots) then
      ∃ hd, (roundTallies (insert a s) ballots).head? = some hd ∧
        topCount (roundTallies (insert a s) ballots) = hd.2 ∧
        rcvLoop (fuel + 1) (insert a s) ballots n rec =
          ⟨some hd.1,
            rec ++ [⟨n, roundTallies (insert a s) ballots, [], some hd.1⟩]⟩
    else
      rcvLoop (fuel + 1) (insert a s) ballots n rec =
        rcvLoop fuel (nextActive (insert a s) ballots)
          (nextBallots (insert a s) ballots) (n + 1)
          (rec ++ [⟨n, roundTallies (insert a s) ballots,
            toEliminate (roundTallies (insert a s) ballots), none⟩])) := by
  have hne : (insert a s : Finset Int) ≠ ∅ := Finset.insert_ne_empty a s
  refine ⟨?_, length_roundTallies _ _, ?_, ?_, ?_⟩
  · unfold majorityThreshold
    rw [ceil_half_eq]
  · exact sorted_topCount_max (roundTallies_sorted _ _)
  · exact sorted_secondCount_max (roundTallies_sorted _ _)
  · by_cases hw : majorityThreshold (ballots.length : Int) ≤
        topCount (roundTallies (insert a s) ballots) ∧
      isClearTop (roundTallies (insert a s) ballots)
    · rw [if_pos hw]
      rcases head_of_ne_nil ballots hne with ⟨hd, hh⟩
      refine ⟨hd, hh, ?_, rcvLoop_winner fuel n rec hne hh hw⟩
      unfold topCount
      rw [hh]
      rfl
    · rw [if_neg hw]
      exact rcvLoop_no_winner fuel n rec hne hw

/-- C3: in every round, the tally of a candidate is exactly the number of
ballots whose highest-ranked choice among the active candidates (in the fixed
order first, second, third) is that candidate, and the tallies over the active
set sum to the number of non-exhausted ballots — so each ballot contributes
exactly one vote, to its first active choice, and a ballot none of whose three
choices is active contributes to no tally. -/
theorem claim3_tally_one_vote_per_ballot (active : Finset Int)
    (ballots : List Vote) :
    (∀ c : Int, tallies active ballots c =
      ((ballots.filter
        (fun v => firstActiveChoice active v == some c)).length : Int)) ∧
    (∑ c ∈ active, tallies active ballots c) =
      ((ballots.filter
        (fun v => (firstActiveChoice active v).isSome)).length : Int) :=
  ⟨fun c => tallies_apply active ballots c, sum_tallies active ballots⟩

/-- C4: in a round that does not declare a winner, the eliminated list
contains exactly the active candidates whose tally equals the round minimum
(bottom ties are eliminated together); they are removed from the active set in
that same round and recorded in the round record; afterwards every ballot with
no choice in the shrunk active set is permanently dropped from the pool, and
the recursive call receives the shrunk pool, whose size is the
`total_ballots` of all subsequent majority checks. -/
theorem claim4_bottom_tie_elimination (fuel : Nat) (a : Int) (s : Finset Int)
    (ballots : List Vote) (n : Nat) (rec : List RcvRound) :
    (∀ c : Int, c ∈ toEliminate (roundTallies (insert a s) ballots) ↔
      c ∈ insert a s ∧ tallies (insert a s) ballots c =
        minVotes (roundTallies (insert a s) ballots)) ∧
    (∀ p ∈ roundTallies (insert a s) ballots,
      minVotes (roundTallies (insert a s) ballots) ≤ p.2) ∧
    (nextActive (insert a s) ballots =
      insert a s \ (toEliminate (roundTallies (insert a s) ballots)).toFinset) ∧
    (nextBallots (insert a s) ballots =
      ballots.filter (hasActiveChoice (nextActive (insert a s) ballots))) ∧
    (¬(majorityThreshold (ballots.length : Int) ≤
          topCount (roundTallies (insert a s) ballots) ∧
        isClearTop (roundTallies (insert a s) ballots)) →
      rcvLoop (fuel + 1) (insert a s) ballots n rec =
        rcvLoop fuel (nextActive (insert a s) ballots)
          (nextBallots (insert a s) ballots) (n + 1)
          (rec ++ [⟨n, roundTallies (insert a s) ballots,
            toEliminate (roundTallies (insert a s) ballots), none⟩])) := by
  have hne : (insert a s : Finset Int) ≠ ∅ := Finset.insert_ne_empty a s
  refine ⟨fun c => mem_toEliminate, ?_, rfl, rfl, ?_⟩
  · exact sorted_minVotes_min (roundTallies_sorted _ _)
  · intro hw
    exact rcvLoop_no_winner fuel n rec hne hw

/-- C4 witnessed: two candidates tied at one vote each — no winner, both are
eliminated together in round 1, the pool empties, and the loop is left in the
recorded no-winner state. -/
theorem claim4_witness :
    rcvLoop 1 (insert 1 {2}) [⟨0, 0, 1, 3, 4, 0⟩, ⟨0, 0, 2, 3, 4, 0⟩] 1 [] =
      ⟨none, [⟨1, [(1, 1), (2, 1)], [1, 2], none⟩]⟩ := by
  have h := (claim4_bottom_tie_elimination 0 1 {2}
      [⟨0, 0, 1, 3, 4, 0⟩, ⟨0, 0, 2, 3, 4, 0⟩] 1 []).2.2.2.2 (by decide)
  rw [h]
  decide

/-- C5: whenever elimination in a round leaves exactly one candidate `c`
active, the immediately following round declares `c` the winner regardless of
its vote count — the recorded second round tallies `c` with the size of the
surviving pool (possibly zero) and names it winner. -/
theorem claim5_lone_candidate_wins_next_round (fuel : Nat) (a c : Int)
    (s : Finset Int) (ballots : List Vote) (n : Nat) (rec : List RcvRound)
    (hnw : ¬(majorityThreshold (ballots.length : Int) ≤
        topCount (roundTallies (insert a s) ballots) ∧
      isClearTop (roundTallies (insert a s) ballots)))
    (hone : nextActive (insert a s) ballots = {c}) :
    rcvLoop (fuel + 2) (insert a s) ballots n rec =
      ⟨some c, rec ++
        [⟨n, roundTallies (insert a s) ballots,
          toEliminate (roundTallies (insert a s) ballots), none⟩,
         ⟨n + 1, [(c, ((nextBallots (insert a s) ballots).length : Int))],
          [], some c⟩]⟩ := by
  have hne : (insert a s : Finset Int) ≠ ∅ := Finset.insert_ne_empty a s
  have h1 := rcvLoop_no_winner (fuel + 1) n rec hne hnw
  rw [h1, hone]
  have hb : ∀ v ∈ nextBallots (insert a s) ballots,
      hasActiveChoice {c} v = true := by
    intro v hv
    unfold nextBallots at hv
    rw [List.mem_filter] at hv
    rw [← hone]
    exact hv.2
  rw [rcvLoop_lone fuel c (nextBallots (insert a s) ballots) (n + 1)
    (rec ++ [RcvRound.mk n (roundTallies (insert a s) ballots)
      (toEliminate (roundTallies (insert a s) ballots)) none]) hb]
  simp

/-- C5 witnessed: candidates {1, 2}; candidate 1 holds 2 of 6 ballots (3 are
exhausted), threshold 3 is missed, 2 is eliminated, and in round 2 the lone
candidate 1 wins with the 2 surviving ballots. -/
theorem claim5_witness :
    rcvLoop 2 (insert 1 {2})
      [⟨0, 0, 1, 8, 9, 0⟩, ⟨0, 0, 1, 8, 9, 0⟩, ⟨0, 0, 2, 8, 9, 0⟩,
       ⟨0, 0, 7, 8, 9, 0⟩, ⟨0, 0, 7, 8, 9, 0⟩, ⟨0, 0, 7, 8, 9, 0⟩] 1 [] =
      ⟨some 1, [⟨1, [(1, 2), (2, 1)], [2], none⟩,
        ⟨2, [(1, 2)], [], some 1⟩]⟩ := by
  have h := claim5_lone_candidate_wins_next_round 0 1 1 {2}
      [⟨0, 0, 1, 8, 9, 0⟩, ⟨0, 0, 1, 8, 9, 0⟩, ⟨0, 0, 2, 8, 9, 0⟩,
       ⟨0, 0, 7, 8, 9, 0⟩, ⟨0, 0, 7, 8, 9, 0⟩, ⟨0, 0, 7, 8, 9, 0⟩] 1 []
      (by decide) (by decide)
  rw [h]
  decide

/-- C6: `compute_rcv` terminates with a result on every input: its result is
already reached with any fuel of at least the number of distinct candidates
(each round either returns with a winner or strictly shrinks the active set),
it records at most `|candidates|` rounds, and when no winner is ever declared
the result is `winner_id = none` together with all recorded rounds — a value,
not an error. -/
theorem claim6_termination_round_bound (votes : List Vote) (cands : List Int)
    (fuel : Nat) (hf : cands.toFinset.card ≤ fuel) :
    rcvLoop fuel cands.toFinset votes 1 [] = compute_rcv votes cands ∧
    (compute_rcv votes cands).rounds.length ≤ cands.length := by
  unfold compute_rcv
  by_cases he : cands.isEmpty
  · rw [if_pos he]
    have hnil : cands = [] := by
      cases cands with
      | nil => rfl
      | cons x xs => cases he
    subst hnil
    constructor
    · cases fuel with
      | zero => rfl
      | succ fuel =>
        rw [show (([] : List Int).toFinset : Finset Int) = ∅ from rfl,
          rcvLoop_succ_empty]
    · simp
  · rw [if_neg he]
    refine ⟨rcvLoop_fuel_congr fuel cands.length cands.toFinset votes 1 []
      hf (List.toFinset_card_le cands), ?_⟩
    obtain ⟨hlen, _, _, _, _⟩ := rcvLoop_master cands.length cands.toFinset
      votes 1 (List.toFinset_card_le cands) _ rfl
    exact le_trans hlen (List.toFinset_card_le cands)

/-- C6 witnessed at two candidates and one ballot: fuel 2 already yields the
final result, one round, within the bound. -/
theorem claim6_witness :
    rcvLoop 2 ([1, 2] : List Int).toFinset [⟨0, 0, 1, 2, 3, 0⟩] 1 [] =
      compute_rcv [⟨0, 0, 1, 2, 3, 0⟩] [1, 2] ∧
    (compute_rcv [⟨0, 0, 1, 2, 3, 0⟩] [1, 2]).rounds.length ≤ 2 :=
  claim6_termination_round_bound [⟨0, 0, 1, 2, 3, 0⟩] [1, 2] 2 (by decide)

/-- C7: for every tabulation, `rounds[i].round_number = i + 1`; each round's
tally list is sorted by count descending with ties broken by id ascending and
carries exactly one entry per candidate active at the start of that round
(the first round covers the whole candidate set, and each later round covers
the previous round's candidates minus its eliminated ones — zero-vote
candidates included); and the number of active candidates strictly decreases
after every round that declares no winner, every non-final round being such a
round. -/
theorem claim7_round_structure_invariants (votes : List Vote)
    (cands : List Int) :
    (∀ i (hi : i < (compute_rcv votes cands).rounds.length),
      ((compute_rcv votes cands).rounds.get ⟨i, hi⟩).round_number = i + 1 ∧
      ((compute_rcv votes cands).rounds.get ⟨i, hi⟩).tallies.Sorted tallyRel ∧
      (((compute_rcv votes cands).rounds.get ⟨i, hi⟩).tallies.map
        Prod.fst).Nodup) ∧
    (∀ h0 : 0 < (compute_rcv votes cands).rounds.length,
      (((compute_rcv votes cands).rounds.get ⟨0, h0⟩).tallies.map
        Prod.fst).toFinset = cands.toFinset) ∧
    (∀ i (hi1 : i < (compute_rcv votes cands).rounds.length)
      (hi2 : i + 1 < (compute_rcv votes cands).rounds.length),
      ((compute_rcv votes cands).rounds.get ⟨i, hi1⟩).winner = none ∧
      ((compute_rcv votes cands).rounds.get ⟨i, hi1⟩).eliminated ≠ [] ∧
      (((compute_rcv votes cands).rounds.get ⟨i + 1, hi2⟩).tallies.map
          Prod.fst).toFinset =
        (((compute_rcv votes cands).rounds.get ⟨i, hi1⟩).tallies.map
          Prod.fst).toFinset \
          ((compute_rcv votes cands).rounds.get ⟨i, hi1⟩).eliminated.toFinset ∧
      ((compute_rcv votes cands).rounds.get ⟨i + 1, hi2⟩).tallies.length <
        ((compute_rcv votes cands).rounds.get ⟨i, hi1⟩).tallies.length) := by
  by_cases he : cands.isEmpty
  · have hz : (compute_rcv votes cands).rounds = [] := by
      unfold compute_rcv
      rw [if_pos he]
    refine ⟨?_, ?_, ?_⟩
    · intro i hi
      rw [hz] at hi
      cases hi
    · intro h0
      rw [hz] at h0
      cases h0
    · intro i hi1 hi2
      rw [hz] at hi1
      cases hi1
  · have hrs : (compute_rcv votes cands).rounds =
        (rcvLoop cands.length cands.toFinset votes 1 []).rounds := by
      unfold compute_rcv
      rw [if_neg he]
    obtain ⟨_, _, hidx, hhead, hadj⟩ := rcvLoop_master cands.length
      cands.toFinset votes 1 (List.toFinset_card_le cands)
      ((compute_rcv votes cands).rounds) hrs
    refine ⟨?_, hhead, hadj⟩
    intro i hi
    obtain ⟨h1, h2, h3⟩ := hidx i hi
    refine ⟨?_, h2, h3⟩
    rw [h1]
    omega

/-- C7 witnessed on a two-round tabulation.  Round numbers are 1 and 2, the
non-final round declares no winner, eliminates someone, and the active set
shrinks. -/
theorem claim7_witness :
    ((compute_rcv [⟨0, 0, 1, 8, 9, 0⟩, ⟨0, 0, 1, 8, 9, 0⟩, ⟨0, 0, 2, 8, 9, 0⟩,
        ⟨0, 0, 7, 8, 9, 0⟩, ⟨0, 0, 7, 8, 9, 0⟩, ⟨0, 0, 7, 8, 9, 0⟩]
        [1, 2]).rounds.get ⟨0, by decide⟩).round_number = 1 ∧
    ((compute_rcv [⟨0, 0, 1, 8, 9, 0⟩, ⟨0, 0, 1, 8, 9, 0⟩, ⟨0, 0, 2, 8, 9, 0⟩,
        ⟨0, 0, 7, 8, 9, 0⟩, ⟨0, 0, 7, 8, 9, 0⟩, ⟨0, 0, 7, 8, 9, 0⟩]
        [1, 2]).rounds.get ⟨1, by decide⟩).round_number = 2 ∧
    ((compute_rcv [⟨0, 0, 1, 8, 9, 0⟩, ⟨0, 0, 1, 8, 9, 0⟩, ⟨0, 0, 2, 8, 9, 0⟩,
        ⟨0, 0, 7, 8, 9, 0⟩, ⟨0, 0, 7, 8, 9, 0⟩, ⟨0, 0, 7, 8, 9, 0⟩]
        [1, 2]).rounds.get ⟨0, by decide⟩).winner = none ∧
    ((compute_rcv [⟨0, 0, 1, 8, 9, 0⟩, ⟨0, 0, 1, 8, 9, 0⟩, ⟨0, 0, 2, 8, 9, 0⟩,
        ⟨0, 0, 7, 8, 9, 0⟩, ⟨0, 0, 7, 8, 9, 0⟩, ⟨0, 0, 7, 8, 9, 0⟩]
        [1, 2]).rounds.get ⟨1, by decide⟩).tallies.length <
      ((compute_rcv [⟨0, 0, 1, 8, 9, 0⟩, ⟨0, 0, 1, 8, 9, 0⟩, ⟨0, 0, 2, 8, 9, 0⟩,
        ⟨0, 0, 7, 8, 9, 0⟩, ⟨0, 0, 7, 8, 9, 0⟩, ⟨0, 0, 7, 8, 9, 0⟩]
        [1, 2]).rounds.get ⟨0, by decide⟩).tallies.length := by
  obtain ⟨hidx, hhead, hadj⟩ := claim7_round_structure_invariants
    [⟨0, 0, 1, 8, 9, 0⟩, ⟨0, 0, 1, 8, 9, 0⟩, ⟨0, 0, 2, 8, 9, 0⟩,
     ⟨0, 0, 7, 8, 9, 0⟩, ⟨0, 0, 7, 8, 9, 0⟩, ⟨0, 0, 7, 8, 9, 0⟩] [1, 2]
  exact ⟨(hidx 0 (by decide)).1, (hidx 1 (by decide)).1,
    (hadj 0 (by decide) (by decide)).1,
    (hadj 0 (by decide) (by decide)).2.2.2⟩

/-- C10: the output of `compute_rcv` — the winner and the full round records,
including tally order and eliminated lists — is invariant under any
permutation of the candidates sequence and any permutation of the ballots
sequence: it is a function of the input sets alone. -/
theorem claim10_input_order_invariance (votes1 votes2 : List Vote)
    (cands1 cands2 : List Int) (hv : List.Perm votes1 votes2)
    (hc : List.Perm cands1 cands2) :
    compute_rcv votes1 cands1 = compute_rcv votes2 cands2 := by
  have hlen : cands1.length = cands2.length := hc.length_eq
  have hfin : cands1.toFinset = cands2.toFinset := by
    ext c
    rw [List.mem_toFinset, List.mem_toFinset]
    exact hc.mem_iff
  have hemp : cands1.isEmpty = cands2.isEmpty := by
    cases cands1 with
    | nil =>
      have h2 : cands2 = [] := hc.symm.eq_nil
      rw [h2]
    | cons x xs =>
      cases cands2 with
      | nil =>
        exact absurd hc.eq_nil (by simp)
      | cons y ys => rfl
  unfold compute_rcv
  rw [hemp, hfin, hlen]
  by_cases he : cands2.isEmpty
  · rw [if_pos he, if_pos he]
  · rw [if_neg he, if_neg he]
    exact rcvLoop_congr_perm cands2.length cands2.toFinset votes1 votes2 1 [] hv

/-- C10 witnessed: swapping both the two ballots and the two candidates gives
the identical result. -/
theorem claim10_witness :
    compute_rcv [⟨0, 0, 1, 2, 3, 0⟩, ⟨1, 0, 2, 1, 3, 0⟩] [2, 1] =
      compute_rcv [⟨1, 0, 2, 1, 3, 0⟩, ⟨0, 0, 1, 2, 3, 0⟩] [1, 2] :=
  claim10_input_order_invariance _ _ _ _ (by decide) (by decide)

end HpHalloween
